import Mathlib

/-!
# Verification of the credential-extraction core of `WifiViewer.cpp`

Shallow embedding of the pure text-processing core of `src/WifiViewer.cpp`:

* `trim_w`        — whitespace trimming (source lines 33–39);
* `tolower_w`     — per-character lowering via C-locale `towlower`/`tolower`,
                    which affects only ASCII `A`–`Z` (lines 42–50, 94–95);
* `extractKeyMaterial` — the structured extractor over the profile XML
                    (lines 53–64);
* `processLines` / `extract_key_fallback` — the line-parsing logic of
                    `try_netsh_parse` (lines 91–121), with the external
                    `popen`/`fgets` acquisition abstracted to a supplied
                    diagnostic text split into newline-terminated lines,
                    exactly as `fgets` delivers them, and the UTF-8 ↔ wide
                    round-trip (which is the identity on the character
                    content) elided;
* `resolvePassword` — the per-profile composition in `wmain`
                    (lines 184–196): structured first, fallback only when
                    the structured result is empty, empty meaning
                    "unavailable".

Text is modelled as `List Char`; the C++ code uses `std::wstring` (UTF-16)
for the structured path and UTF-8 `std::string` for the fallback path, and
both searches performed by the code (lowered-copy substring search, colon
search) act identically on the character content, so one character-sequence
model covers both.
-/

namespace WifiViewer

/-- The whitespace class shared by C-locale `iswspace` (wide path) and
`isspace` (narrow path): space, `\t`, `\n`, `\v`, `\f`, `\r`. -/
def iswspace (c : Char) : Bool :=
  c = ' ' || c = '\t' || c = '\n' || c = '\x0b' || c = '\x0c' || c = '\r'

/-- `trim_w` (source lines 33–39): drop leading whitespace, then trailing
whitespace. The two `while` loops of the source compute exactly the
leading-drop followed by the trailing-drop. -/
def trim_w (s : List Char) : List Char :=
  ((s.dropWhile iswspace).reverse.dropWhile iswspace).reverse

/-- C-locale `towlower` / `tolower`: lowers ASCII `A`–`Z`, leaves every
other character (including the non-ASCII characters of the Japanese label)
unchanged. -/
def towlower (c : Char) : Char :=
  if 'A' ≤ c ∧ c ≤ 'Z' then Char.ofNat (c.toNat + 32) else c

/-- `tolower_w` (source lines 42–50): character-wise lowering; also models
the `std::transform`/`std::tolower` lowering of the fallback path
(lines 93–95). -/
def tolower_w (s : List Char) : List Char := s.map towlower

/-- Opening marker searched for in the lowered document (line 55). -/
def tag1 : List Char := "<keymaterial>".toList

/-- Closing marker searched for in the lowered document (line 56). -/
def tag2 : List Char := "</keymaterial>".toList

/-- `needle` occurs in `hay` at index `i` (it fits and the slice matches).
This is the specification of `std::basic_string::find` hits. -/
def occursAt (hay needle : List Char) (i : Nat) : Prop :=
  i + needle.length ≤ hay.length ∧ (hay.drop i).take needle.length = needle

instance (hay needle : List Char) (i : Nat) : Decidable (occursAt hay needle i) := by
  unfold occursAt; infer_instance

/-- Fuelled linear scan implementing `std::basic_string::find(needle, start)`:
the first index `≥ start` at which `needle` occurs, or `none` (`npos`). -/
def findSubAux (hay needle : List Char) : Nat → Nat → Option Nat
  | _, 0 => none
  | start, fuel + 1 =>
    if start + needle.length ≤ hay.length then
      if (hay.drop start).take needle.length = needle then some start
      else findSubAux hay needle (start + 1) fuel
    else none

/-- `hay.find(needle, start)` of the source, with enough fuel to scan the
whole string. -/
def findSubFrom (hay needle : List Char) (start : Nat) : Option Nat :=
  findSubAux hay needle start (hay.length + 1 - start)

/-- `extractKeyMaterial` (source lines 53–64): lower a copy of the
document, find `<keymaterial>` from the start, find `</keymaterial>` from
the end of the opening marker, and return the trimmed slice of the
*original* document between the two positions; the empty string signals
"not found". -/
def extractKeyMaterial (xml : List Char) : List Char :=
  let low := tolower_w xml
  match findSubFrom low tag1 0 with
  | none => []
  | some p1 =>
    match findSubFrom low tag2 (p1 + tag1.length) with
    | none => []
    | some p2 => trim_w ((xml.drop (p1 + tag1.length)).take (p2 - (p1 + tag1.length)))

/-- Primary (English) label of the fallback path, searched in the lowered
line (source line 97). -/
def labelPrimary : List Char := "key content".toList

/-- Localized (Japanese) label, searched only when the primary label is
absent from the line (source lines 98–99); C-locale lowering leaves its
characters unchanged. -/
def labelLocalized : List Char := "キー コンテンツ".toList

/-- Label search of `try_netsh_parse` on one line (source lines 93–99):
lower the line, look for the primary label first, and only if it is absent
look for the localized label. -/
def lineLabelPos (line : List Char) : Option Nat :=
  let low := tolower_w line
  match findSubFrom low labelPrimary 0 with
  | some p => some p
  | none => findSubFrom low labelLocalized 0

/-- The `while (fgets …)` loop body of `try_netsh_parse`
(source lines 91–121) over an explicit list of lines: a line with no label
is skipped; a line with a label but no colon at or after the label
position, or whose first such colon is the final character
(`col + 1 < line.size()` fails), is also skipped — the `break` sits inside
that innermost `if` — and the first line that passes both tests produces
the trimmed text after the colon (narrow trim, then `trim_w` after the
encoding round-trip) and stops the scan. -/
def processLines : List (List Char) → List Char
  | [] => []
  | line :: rest =>
    match lineLabelPos line with
    | none => processLines rest
    | some pos =>
      match findSubFrom line [':'] pos with
      | none => processLines rest
      | some col =>
        if col + 1 < line.length then
          trim_w (trim_w (line.drop (col + 1)))
        else processLines rest

/-- Split a text into the lines `fgets` would deliver: every `\n` ends a
line and is kept in it; a final fragment without `\n` is a line of its own;
the empty text yields no lines. (`acc` holds the current line reversed.) -/
def splitLinesAux : List Char → List Char → List (List Char)
  | [], acc => if acc = [] then [] else [acc.reverse]
  | c :: rest, acc =>
    if c = '\n' then (c :: acc).reverse :: splitLinesAux rest []
    else splitLinesAux rest (c :: acc)

/-- The lines of a diagnostic text, newline-terminated as `fgets` yields
them. -/
def splitLinesKeepNL (s : List Char) : List (List Char) := splitLinesAux s []

/-- The pure content of `try_netsh_parse` (source lines 91–121) on a
supplied diagnostic text: the process-spawning acquisition (`popen`) is
modelled, as the spec's interface prescribes, by handing the text in
directly. The empty string signals "not found". -/
def extract_key_fallback (diag : List Char) : List Char :=
  processLines (splitLinesKeepNL diag)

/-- The per-profile composition of `wmain` (source lines 184–196):
`password` is the structured extraction of the descriptor when one was
obtained (else empty), and the fallback runs exactly when `password` is
empty; an empty final result is reported as unavailable (line 204). -/
def resolvePassword (descriptor : Option (List Char)) (diag : List Char) : List Char :=
  let password : List Char :=
    match descriptor with
    | some xml => extractKeyMaterial xml
    | none => []
  if password = [] then extract_key_fallback diag else password

/-- `resolvePassword` instrumented with invocation counts: the result,
the number of structured-extractor invocations, and the number of
fallback invocations performed for the profile. -/
def resolvePasswordTrace (descriptor : Option (List Char)) (diag : List Char) :
    List Char × Nat × Nat :=
  match descriptor with
  | some xml =>
    let p := extractKeyMaterial xml
    if p = [] then (extract_key_fallback diag, 1, 1) else (p, 1, 0)
  | none => (extract_key_fallback diag, 0, 1)

/-- `start ≤ i`, `needle` occurs at `i`, and at no earlier index `≥ start`:
the logical characterisation of what `find(needle, start)` returns. -/
def isFirstOcc (hay needle : List Char) (start i : Nat) : Prop :=
  start ≤ i ∧ occursAt hay needle i ∧
    ∀ j, j < i → start ≤ j → ¬ occursAt hay needle j

instance (hay needle : List Char) (start i : Nat) :
    Decidable (isFirstOcc hay needle start i) := by
  unfold isFirstOcc; infer_instance

/-- Some occurrence of `needle` exists in `hay` at an index `≥ start`. -/
def containsSubFrom (hay needle : List Char) (start : Nat) : Prop :=
  ∃ i, start ≤ i ∧ occursAt hay needle i

/-! ## Characterisation of the substring search -/

theorem findSubAux_some {hay needle : List Char} :
    ∀ {fuel start i : Nat}, findSubAux hay needle start fuel = some i →
      isFirstOcc hay needle start i
  | 0, _, _, h => by simp [findSubAux] at h
  | fuel + 1, start, i, h => by
    unfold findSubAux at h
    by_cases hlen : start + needle.length ≤ hay.length
    · rw [if_pos hlen] at h
      by_cases hm : (hay.drop start).take needle.length = needle
      · rw [if_pos hm] at h
        cases h
        exact ⟨Nat.le_refl _, ⟨hlen, hm⟩, fun j hj hj' => absurd hj' (by omega)⟩
      · rw [if_neg hm] at h
        obtain ⟨h1, h2, h3⟩ := findSubAux_some h
        refine ⟨by omega, h2, fun j hj hsj => ?_⟩
        rcases Nat.eq_or_lt_of_le hsj with rfl | hlt
        · exact fun hocc => hm hocc.2
        · exact h3 j hj hlt
    · rw [if_neg hlen] at h; cases h

theorem findSubAux_none {hay needle : List Char} :
    ∀ {fuel start : Nat}, hay.length + 1 ≤ start + fuel →
      findSubAux hay needle start fuel = none →
      ∀ j, start ≤ j → ¬ occursAt hay needle j
  | 0, _, hfuel, _, j, hj, hocc => by
    have := hocc.1; omega
  | fuel + 1, start, hfuel, h, j, hj, hocc => by
    unfold findSubAux at h
    by_cases hlen : start + needle.length ≤ hay.length
    · rw [if_pos hlen] at h
      by_cases hm : (hay.drop start).take needle.length = needle
      · rw [if_pos hm] at h; cases h
      · rw [if_neg hm] at h
        rcases Nat.eq_or_lt_of_le hj with rfl | hlt
        · exact hm hocc.2
        · exact findSubAux_none (by omega) h j (by omega) hocc
    · rw [if_neg hlen] at h
      have := hocc.1; omega

theorem findSubFrom_some {hay needle : List Char} {start i : Nat}
    (h : findSubFrom hay needle start = some i) : isFirstOcc hay needle start i :=
  findSubAux_some h

theorem findSubFrom_none {hay needle : List Char} {start : Nat}
    (h : findSubFrom hay needle start = none) :
    ∀ j, start ≤ j → ¬ occursAt hay needle j :=
  findSubAux_none (by omega) h

theorem findSubFrom_of_isFirstOcc {hay needle : List Char} {start i : Nat}
    (h : isFirstOcc hay needle start i) : findSubFrom hay needle start = some i := by
  cases hf : findSubFrom hay needle start with
  | none => exact absurd h.2.1 (findSubFrom_none hf i h.1)
  | some i' =>
    obtain ⟨h1', h2', h3'⟩ := findSubFrom_some hf
    obtain ⟨h1, h2, h3⟩ := h
    have hni : ¬ i' < i := fun hlt => h3 i' hlt h1' h2'
    have hni' : ¬ i < i' := fun hlt => h3' i hlt h1 h2
    have : i' = i := by omega
    rw [this]

theorem isFirstOcc_unique {hay needle : List Char} {start i j : Nat}
    (h : isFirstOcc hay needle start i) (h' : isFirstOcc hay needle start j) : i = j := by
  have hi := findSubFrom_of_isFirstOcc h
  have hj := findSubFrom_of_isFirstOcc h'
  rw [hi] at hj
  exact Option.some.inj hj

theorem containsSubFrom_iff_isSome {hay needle : List Char} {start : Nat} :
    containsSubFrom hay needle start ↔ (findSubFrom hay needle start).isSome := by
  constructor
  · rintro ⟨i, hsi, hocc⟩
    cases hf : findSubFrom hay needle start with
    | none => exact absurd hocc (findSubFrom_none hf i hsi)
    | some j => rfl
  · intro h
    cases hf : findSubFrom hay needle start with
    | none => rw [hf] at h; cases h
    | some j =>
      obtain ⟨h1, h2, _⟩ := findSubFrom_some hf
      exact ⟨j, h1, h2⟩

instance (hay needle : List Char) (start : Nat) :
    Decidable (containsSubFrom hay needle start) :=
  decidable_of_iff _ containsSubFrom_iff_isSome.symm

theorem findSubFrom_eq_none_of_not_contains {hay needle : List Char} {start : Nat}
    (h : ¬ containsSubFrom hay needle start) : findSubFrom hay needle start = none := by
  cases hf : findSubFrom hay needle start with
  | none => rfl
  | some j =>
    obtain ⟨h1, h2, _⟩ := findSubFrom_some hf
    exact absurd ⟨j, h1, h2⟩ h

/-! ## Trimming lemmas -/

theorem dropWhile_idem (p : Char → Bool) (l : List Char) :
    List.dropWhile p (List.dropWhile p l) = List.dropWhile p l := by
  induction l with
  | nil => rfl
  | cons c l ih =>
    by_cases h : p c = true
    · simp [List.dropWhile_cons, h, ih]
    · simp [List.dropWhile_cons, h]

theorem length_dropWhile_le' (p : Char → Bool) (l : List Char) :
    (List.dropWhile p l).length ≤ l.length := by
  induction l with
  | nil => simp
  | cons c l ih =>
    by_cases h : p c = true
    · simp only [List.dropWhile_cons, if_pos h]
      exact Nat.le_succ_of_le ih
    · simp [List.dropWhile_cons, h]

theorem dropWhile_reverse_dropWhile {p : Char → Bool} {w : List Char}
    (hw : List.dropWhile p w = w) :
    List.dropWhile p (List.dropWhile p w.reverse).reverse
      = (List.dropWhile p w.reverse).reverse := by
  cases w with
  | nil => simp
  | cons c w0 =>
    have hc : ¬ p c = true := by
      intro hpc
      rw [List.dropWhile_cons, if_pos hpc] at hw
      have hlen := congrArg List.length hw
      have := length_dropWhile_le' p w0
      simp only [List.length_cons] at hlen
      omega
    rw [List.reverse_cons, List.dropWhile_append]
    by_cases he : (List.dropWhile p w0.reverse).isEmpty
    · rw [if_pos he]
      simp [List.dropWhile_cons, hc]
    · rw [if_neg he, List.reverse_append]
      simp [List.dropWhile_cons, hc]

theorem trim_w_idem (s : List Char) : trim_w (trim_w s) = trim_w s := by
  unfold trim_w
  have hw : List.dropWhile iswspace (List.dropWhile iswspace s)
      = List.dropWhile iswspace s := dropWhile_idem _ _
  rw [dropWhile_reverse_dropWhile hw, List.reverse_reverse, dropWhile_idem]

/-! ## Step lemmas for the fallback line scan -/

/-- The decision `try_netsh_parse` takes on a single line: `some col` when
the line contains a label and a usable colon (so the loop `break`s there),
`none` when the line is passed over. Derived view of one iteration of the
source loop (lines 91–121). -/
def lineHit (line : List Char) : Option Nat :=
  match lineLabelPos line with
  | none => none
  | some pos =>
    match findSubFrom line [':'] pos with
    | none => none
    | some col => if col + 1 < line.length then some col else none

theorem processLines_cons_noLabel {line : List Char} {rest : List (List Char)}
    (hl : lineLabelPos line = none) :
    processLines (line :: rest) = processLines rest := by
  simp only [processLines, hl]

theorem processLines_cons_noColon {line : List Char} {rest : List (List Char)} {pos : Nat}
    (hl : lineLabelPos line = some pos) (hc : findSubFrom line [':'] pos = none) :
    processLines (line :: rest) = processLines rest := by
  simp only [processLines, hl, hc]

theorem processLines_cons_colonLast {line : List Char} {rest : List (List Char)}
    {pos col : Nat}
    (hl : lineLabelPos line = some pos) (hc : findSubFrom line [':'] pos = some col)
    (hlt : ¬ col + 1 < line.length) :
    processLines (line :: rest) = processLines rest := by
  simp only [processLines, hl, hc, if_neg hlt]

theorem processLines_cons_hit {line : List Char} {rest : List (List Char)} {pos col : Nat}
    (hl : lineLabelPos line = some pos) (hc : findSubFrom line [':'] pos = some col)
    (hlt : col + 1 < line.length) :
    processLines (line :: rest) = trim_w (trim_w (line.drop (col + 1))) := by
  simp only [processLines, hl, hc, if_pos hlt]

theorem lineHit_eq_some {line : List Char} {pos col : Nat}
    (hl : lineLabelPos line = some pos)
    (hc : findSubFrom line [':'] pos = some col)
    (hlt : col + 1 < line.length) :
    lineHit line = some col := by
  simp only [lineHit, hl, hc, if_pos hlt]

theorem lineHit_eq_none_of_no_label {line : List Char}
    (h : lineLabelPos line = none) : lineHit line = none := by
  simp only [lineHit, h]

theorem lineHit_eq_none_noColon {line : List Char} {pos : Nat}
    (hl : lineLabelPos line = some pos) (hc : findSubFrom line [':'] pos = none) :
    lineHit line = none := by
  simp only [lineHit, hl, hc]

theorem lineHit_eq_none_colonLast {line : List Char} {pos col : Nat}
    (hl : lineLabelPos line = some pos) (hc : findSubFrom line [':'] pos = some col)
    (hlt : ¬ col + 1 < line.length) :
    lineHit line = none := by
  simp only [lineHit, hl, hc, if_neg hlt]

theorem processLines_cons_of_none {line : List Char} {rest : List (List Char)}
    (h : lineHit line = none) :
    processLines (line :: rest) = processLines rest := by
  cases hl : lineLabelPos line with
  | none => exact processLines_cons_noLabel hl
  | some pos =>
    cases hc : findSubFrom line [':'] pos with
    | none => exact processLines_cons_noColon hl hc
    | some col =>
      by_cases hlt : col + 1 < line.length
      · rw [lineHit_eq_some hl hc hlt] at h; cases h
      · exact processLines_cons_colonLast hl hc hlt

theorem processLines_cons_of_some {line : List Char} {rest : List (List Char)} {col : Nat}
    (h : lineHit line = some col) :
    processLines (line :: rest) = trim_w (trim_w (line.drop (col + 1))) := by
  cases hl : lineLabelPos line with
  | none => rw [lineHit_eq_none_of_no_label hl] at h; cases h
  | some pos =>
    cases hc : findSubFrom line [':'] pos with
    | none => rw [lineHit_eq_none_noColon hl hc] at h; cases h
    | some col' =>
      by_cases hlt : col' + 1 < line.length
      · rw [lineHit_eq_some hl hc hlt] at h
        cases h
        exact processLines_cons_hit hl hc hlt
      · rw [lineHit_eq_none_colonLast hl hc hlt] at h; cases h

theorem processLines_append_of_none {pre : List (List Char)}
    (h : ∀ l ∈ pre, lineHit l = none) :
    ∀ rest : List (List Char), processLines (pre ++ rest) = processLines rest := by
  induction pre with
  | nil => intro rest; rfl
  | cons l pre ih =>
    intro rest
    rw [List.cons_append,
      processLines_cons_of_none (h l (List.mem_cons_self l pre)),
      ih (fun l' hl' => h l' (List.mem_cons_of_mem l hl'))]

theorem lineLabelPos_eq_none {line : List Char}
    (h1 : ¬ containsSubFrom (tolower_w line) labelPrimary 0)
    (h2 : ¬ containsSubFrom (tolower_w line) labelLocalized 0) :
    lineLabelPos line = none := by
  simp only [lineLabelPos, findSubFrom_eq_none_of_not_contains h1,
    findSubFrom_eq_none_of_not_contains h2]

/-! ## Trim-fixedness of the extractor results -/

theorem extractKeyMaterial_trim_fixed (xml : List Char) :
    trim_w (extractKeyMaterial xml) = extractKeyMaterial xml := by
  cases h1 : findSubFrom (tolower_w xml) tag1 0 with
  | none => simp only [extractKeyMaterial, h1]; rfl
  | some p1 =>
    cases h2 : findSubFrom (tolower_w xml) tag2 (p1 + tag1.length) with
    | none => simp only [extractKeyMaterial, h1, h2]; rfl
    | some p2 => simp only [extractKeyMaterial, h1, h2, trim_w_idem]

theorem processLines_trim_fixed (ls : List (List Char)) :
    trim_w (processLines ls) = processLines ls := by
  induction ls with
  | nil => rfl
  | cons line rest ih =>
    cases h : lineHit line with
    | none => rw [processLines_cons_of_none h]; exact ih
    | some col => rw [processLines_cons_of_some h, trim_w_idem]

theorem extract_key_fallback_trim_fixed (diag : List Char) :
    trim_w (extract_key_fallback diag) = extract_key_fallback diag :=
  processLines_trim_fixed _

/-! ## Occurrences in an extended document -/

theorem slice_append {xml s : List Char} {i n : Nat} (h : i + n ≤ xml.length) :
    ((xml ++ s).drop i).take n = (xml.drop i).take n := by
  rw [List.drop_append_of_le_length (by omega), List.take_append_of_le_length]
  rw [List.length_drop]; omega

theorem occursAt_append_iff {xml s needle : List Char} {i : Nat}
    (h : i + needle.length ≤ xml.length) :
    occursAt (xml ++ s) needle i ↔ occursAt xml needle i := by
  unfold occursAt
  rw [slice_append h, List.length_append]
  constructor
  · rintro ⟨_, h2⟩; exact ⟨h, h2⟩
  · rintro ⟨h1, h2⟩; exact ⟨by omega, h2⟩

theorem extractKeyMaterial_eq_of_finds {xml : List Char} {p1 p2 : Nat}
    (h1 : findSubFrom (tolower_w xml) tag1 0 = some p1)
    (h2 : findSubFrom (tolower_w xml) tag2 (p1 + tag1.length) = some p2) :
    extractKeyMaterial xml
      = trim_w ((xml.drop (p1 + tag1.length)).take (p2 - (p1 + tag1.length))) := by
  simp only [extractKeyMaterial, h1, h2]

theorem length_tolower_w (s : List Char) : (tolower_w s).length = s.length :=
  List.length_map _ _

/-! ## Claims about the structured extractor -/

/-- C1: for every document that contains, case-insensitively, the opening
marker `<keyMaterial>` (first occurrence at `p1` in the lowered copy)
followed later by the closing marker `</keyMaterial>` (first occurrence at
or after the end of the opening marker at `p2`), `extractKeyMaterial`
returns the slice of the original, case-preserving document between the
end of the opening marker and the start of that first closing marker,
trimmed of leading and trailing whitespace. -/
theorem c1_structured_extracts_between_markers (xml : List Char) (p1 p2 : Nat)
    (h1 : isFirstOcc (tolower_w xml) tag1 0 p1)
    (h2 : isFirstOcc (tolower_w xml) tag2 (p1 + tag1.length) p2) :
    extractKeyMaterial xml
      = trim_w ((xml.drop (p1 + tag1.length)).take (p2 - (p1 + tag1.length))) :=
  extractKeyMaterial_eq_of_finds (findSubFrom_of_isFirstOcc h1)
    (findSubFrom_of_isFirstOcc h2)

/-- Witness for C1: the spec's Scenario 1, the document
`<KeyMaterial> secret123 </KeyMaterial>`, yields `secret123`. -/
theorem c1_witness :
    extractKeyMaterial "<KeyMaterial> secret123 </KeyMaterial>".toList
      = "secret123".toList := by
  have h := c1_structured_extracts_between_markers
    "<KeyMaterial> secret123 </KeyMaterial>".toList 0 24 (by decide) (by decide)
  rw [h]; decide

/-- C5: whenever the lowered document has no occurrence of the closing
marker at or after the end of the first occurrence of the opening marker —
which covers the opening marker being absent (the hypothesis is vacuous),
the closing marker being absent, and the only closing marker appearing
before the opening marker — `extractKeyMaterial` returns the empty
("not found") result; being a total function, it raises no error. -/
theorem c5_missing_markers_not_found (xml : List Char)
    (h : ∀ p1, isFirstOcc (tolower_w xml) tag1 0 p1 →
      ¬ containsSubFrom (tolower_w xml) tag2 (p1 + tag1.length)) :
    extractKeyMaterial xml = [] := by
  cases h1 : findSubFrom (tolower_w xml) tag1 0 with
  | none => simp only [extractKeyMaterial, h1]
  | some p1 =>
    have hnc := h p1 (findSubFrom_some h1)
    simp only [extractKeyMaterial, h1, findSubFrom_eq_none_of_not_contains hnc]

/-- Witness for C5: a document whose only closing marker precedes the
opening marker is reported "not found". -/
theorem c5_witness : extractKeyMaterial "</keyMaterial>x<keyMaterial>".toList = [] := by
  apply c5_missing_markers_not_found
  intro p1 hp1
  have h15 : isFirstOcc (tolower_w "</keyMaterial>x<keyMaterial>".toList) tag1 0 15 := by
    decide
  have hp : p1 = 15 := isFirstOcc_unique hp1 h15
  subst hp
  decide

/-- C10: when the document contains a complete (case-insensitive)
`<keyMaterial>…</keyMaterial>` pair — first opening occurrence at `p1`,
first closing occurrence after it at `p2` — appending any further text
(in particular further `<keyMaterial>…</keyMaterial>` pairs) does not
change the result: `extractKeyMaterial` still returns the trimmed content
between the first opening marker and the first closing marker after it. -/
theorem c10_first_pair_ignores_later (xml s : List Char) (p1 p2 : Nat)
    (h1 : isFirstOcc (tolower_w xml) tag1 0 p1)
    (h2 : isFirstOcc (tolower_w xml) tag2 (p1 + tag1.length) p2) :
    extractKeyMaterial (xml ++ s)
      = trim_w ((xml.drop (p1 + tag1.length)).take (p2 - (p1 + tag1.length))) := by
  obtain ⟨-, hocc1, hmin1⟩ := h1
  obtain ⟨hle2, hocc2, hmin2⟩ := h2
  have hL : (tolower_w xml).length = xml.length := length_tolower_w xml
  have hlow : tolower_w (xml ++ s) = tolower_w xml ++ tolower_w s :=
    List.map_append _ _ _
  have hfit1 : p1 + tag1.length ≤ xml.length := by
    have := hocc1.1; omega
  have hfit2 : p2 + tag2.length ≤ xml.length := by
    have := hocc2.1; omega
  have hocc1' : occursAt (tolower_w (xml ++ s)) tag1 p1 := by
    rw [hlow]
    exact (occursAt_append_iff (by omega)).mpr hocc1
  have hmin1' : ∀ j, j < p1 → 0 ≤ j → ¬ occursAt (tolower_w (xml ++ s)) tag1 j := by
    intro j hj _ hocc
    rw [hlow] at hocc
    exact hmin1 j hj (Nat.zero_le _) ((occursAt_append_iff (by omega)).mp hocc)
  have hocc2' : occursAt (tolower_w (xml ++ s)) tag2 p2 := by
    rw [hlow]
    exact (occursAt_append_iff (by omega)).mpr hocc2
  have hmin2' : ∀ j, j < p2 → p1 + tag1.length ≤ j →
      ¬ occursAt (tolower_w (xml ++ s)) tag2 j := by
    intro j hj hsj hocc
    rw [hlow] at hocc
    exact hmin2 j hj hsj ((occursAt_append_iff (by omega)).mp hocc)
  have e1 := findSubFrom_of_isFirstOcc ⟨Nat.zero_le _, hocc1', hmin1'⟩
  have e2 := findSubFrom_of_isFirstOcc ⟨hle2, hocc2', hmin2'⟩
  rw [extractKeyMaterial_eq_of_finds e1 e2, slice_append (by omega)]

/-- Witness for C10: with a second, differing pair appended, the content of
the first pair is returned. -/
theorem c10_witness :
    extractKeyMaterial ("<keyMaterial>a</keyMaterial>".toList
        ++ "<keyMaterial>b</keyMaterial>".toList)
      = "a".toList := by
  have h := c10_first_pair_ignores_later "<keyMaterial>a</keyMaterial>".toList
    "<keyMaterial>b</keyMaterial>".toList 0 14 (by decide) (by decide)
  rw [h]; decide

/-! ## Claims about the fallback extractor -/

/-- C2 counterexample: the claim says that once a line matches a label,
no later line is examined, so a matching line without a colon forces the
overall result "not found" even when a later line carries a label, a colon
and a value. On the diagnostic text `"Key Content\nKey Content: x\n"` the
first line matches the primary label and has no colon, yet the code keeps
scanning and returns `x` from the second line — not the empty
("not found") result the claim requires. -/
theorem c2_counterexample :
    extract_key_fallback "Key Content\nKey Content: x\n".toList = "x".toList ∧
      "x".toList ≠ ([] : List Char) := by
  exact ⟨by decide, by decide⟩

/-- C2 (amended): the result is determined solely by the first line that
contains a label *and* has a colon at or after the label's position with
at least one character after it; once such a line is found no later line
is examined, a label line without such a colon is skipped and the scan
continues, and if no line qualifies the result is "not found". -/
theorem c2_amended_first_usable_line_wins :
    (∀ (pre : List (List Char)) (line : List Char) (pos col : Nat)
        (rest : List (List Char)),
      (∀ l ∈ pre, lineHit l = none) →
      lineLabelPos line = some pos →
      findSubFrom line [':'] pos = some col →
      col + 1 < line.length →
      processLines (pre ++ line :: rest) = trim_w (line.drop (col + 1))) ∧
    (∀ ls : List (List Char), (∀ l ∈ ls, lineHit l = none) → processLines ls = []) := by
  constructor
  · intro pre line pos col rest hpre hl hc hval
    rw [processLines_append_of_none hpre, processLines_cons_hit hl hc hval, trim_w_idem]
  · intro ls h
    induction ls with
    | nil => rfl
    | cons l ls ih =>
      rw [processLines_cons_of_none (h l (List.mem_cons_self l ls))]
      exact ih (fun l' hl' => h l' (List.mem_cons_of_mem l hl'))

/-- Witness for the amended C2: the first label line lacks a colon and is
skipped; the second label line supplies the value. -/
theorem c2_amended_witness :
    processLines ["Key Content\n".toList, "Key Content: x\n".toList] = "x".toList := by
  have h := c2_amended_first_usable_line_wins.1 ["Key Content\n".toList]
    "Key Content: x\n".toList 0 11 [] (by decide) (by decide) (by decide) (by decide)
  exact h.trans (by decide)

/-- C3: when some line contains, case-insensitively, the primary label
(first occurrence at `p`), the first colon at or after `p` in the original
line sits at `col` with at least one character after it, and no earlier
line contains either label, `extract_key_fallback` returns the text after
that colon trimmed of leading and trailing whitespace. -/
theorem c3_fallback_primary_value (text : List Char) (pre post : List (List Char))
    (line : List Char) (p col : Nat)
    (hsplit : splitLinesKeepNL text = pre ++ line :: post)
    (hpre : ∀ l ∈ pre, ¬ containsSubFrom (tolower_w l) labelPrimary 0 ∧
      ¬ containsSubFrom (tolower_w l) labelLocalized 0)
    (hp : isFirstOcc (tolower_w line) labelPrimary 0 p)
    (hcol : isFirstOcc line [':'] p col)
    (hval : col + 1 < line.length) :
    extract_key_fallback text = trim_w (line.drop (col + 1)) := by
  unfold extract_key_fallback
  rw [hsplit, processLines_append_of_none (fun l hl =>
    lineHit_eq_none_of_no_label (lineLabelPos_eq_none (hpre l hl).1 (hpre l hl).2))]
  have hlp : lineLabelPos line = some p := by
    simp only [lineLabelPos, findSubFrom_of_isFirstOcc hp]
  rw [processLines_cons_hit hlp (findSubFrom_of_isFirstOcc hcol) hval, trim_w_idem]

/-- Witness for C3: the spec's Scenario 3, the diagnostic text
`"Key Content            : hunter2\n"`, yields `hunter2`. -/
theorem c3_witness :
    extract_key_fallback "Key Content            : hunter2\n".toList
      = "hunter2".toList := by
  have h := c3_fallback_primary_value "Key Content            : hunter2\n".toList
    [] [] "Key Content            : hunter2\n".toList 0 23
    (by decide) (by simp) (by decide) (by decide) (by decide)
  exact h.trans (by decide)

/-- C8: a line that contains a label but has no colon at or after the
label's position, or whose first such colon is the line's final character,
contributes nothing and does not stop the scan — the remaining lines are
processed exactly as if the line were absent; and a line whose first colon
at or after the label position is followed by at least one character
yields the (doubly, hence idempotently) trimmed text after that colon as
the result. -/
theorem c8_unusable_label_line_skipped :
    (∀ (line : List Char) (pos : Nat) (rest : List (List Char)),
      lineLabelPos line = some pos →
      (findSubFrom line [':'] pos = none ∨
        (∃ col, findSubFrom line [':'] pos = some col ∧ col + 1 = line.length)) →
      processLines (line :: rest) = processLines rest) ∧
    (∀ (line : List Char) (pos col : Nat) (rest : List (List Char)),
      lineLabelPos line = some pos →
      findSubFrom line [':'] pos = some col →
      col + 1 < line.length →
      processLines (line :: rest) = trim_w (trim_w (line.drop (col + 1)))) := by
  constructor
  · rintro line pos rest hl (hc | ⟨col, hc, hcol⟩)
    · exact processLines_cons_noColon hl hc
    · exact processLines_cons_colonLast hl hc (by omega)
  · intro line pos col rest hl hc hval
    exact processLines_cons_hit hl hc hval

/-- Witness for C8: a label line whose colon is its final character is
skipped and the value comes from the next line. -/
theorem c8_witness :
    processLines ["Key Content:".toList, "Key Content: y\n".toList]
      = processLines ["Key Content: y\n".toList] := by
  exact c8_unusable_label_line_skipped.1 "Key Content:".toList 0
    ["Key Content: y\n".toList] (by decide) (Or.inr ⟨11, by decide, by decide⟩)

/-- C9: within a line, the primary label "key content" takes priority:
if its first occurrence in the lowered line is at `p`, the label position
used is `p` (the localized label is consulted only when the primary label
is absent), and the colon search starts at `p` even when the localized
label occurs earlier in the same line. -/
theorem c9_primary_label_priority :
    (∀ (line : List Char) (p : Nat),
      isFirstOcc (tolower_w line) labelPrimary 0 p → lineLabelPos line = some p) ∧
    (∀ line : List Char, ¬ containsSubFrom (tolower_w line) labelPrimary 0 →
      lineLabelPos line = findSubFrom (tolower_w line) labelLocalized 0) ∧
    (∀ (line : List Char) (p q col : Nat) (rest : List (List Char)),
      isFirstOcc (tolower_w line) labelPrimary 0 p →
      occursAt (tolower_w line) labelLocalized q → q < p →
      isFirstOcc line [':'] p col → col + 1 < line.length →
      processLines (line :: rest) = trim_w (trim_w (line.drop (col + 1)))) := by
  refine ⟨?_, ?_, ?_⟩
  · intro line p hp
    simp only [lineLabelPos, findSubFrom_of_isFirstOcc hp]
  · intro line hnc
    simp only [lineLabelPos, findSubFrom_eq_none_of_not_contains hnc]
  · intro line p q col rest hp _ _ hcol hval
    exact processLines_cons_hit
      (by simp only [lineLabelPos, findSubFrom_of_isFirstOcc hp])
      (findSubFrom_of_isFirstOcc hcol) hval

/-- Witness for C9: in a line where the localized label (and a colon)
precede the primary label, the value still comes from the first colon at
or after the primary label's position. -/
theorem c9_witness :
    processLines ["キー コンテンツ: a Key Content: b\n".toList] = "b".toList := by
  have h := (c9_primary_label_priority.2.2) "キー コンテンツ: a Key Content: b\n".toList
    12 0 23 [] (by decide) (by decide) (by decide) (by decide) (by decide)
  exact h.trans (by decide)

/-! ## Claims about the composition and the common result shape -/

/-- C4: per profile, the composed result is the structured extractor's
value when the descriptor is present and that value is non-empty (and the
fallback is then not invoked at all); otherwise it is the fallback
extractor's value on the diagnostic text, the empty result being the
"unavailable" marker; and each extraction path runs at most once, as the
instrumented trace records. -/
theorem c4_fallback_policy (descriptor : Option (List Char)) (diag : List Char) :
    (resolvePasswordTrace descriptor diag).1 = resolvePassword descriptor diag ∧
    (resolvePasswordTrace descriptor diag).2.1 ≤ 1 ∧
    (resolvePasswordTrace descriptor diag).2.2 ≤ 1 ∧
    (∀ xml, descriptor = some xml → extractKeyMaterial xml ≠ [] →
      resolvePassword descriptor diag = extractKeyMaterial xml ∧
      (resolvePasswordTrace descriptor diag).2.2 = 0) ∧
    ((∀ xml, descriptor = some xml → extractKeyMaterial xml = []) →
      resolvePassword descriptor diag = extract_key_fallback diag) := by
  cases descriptor with
  | none =>
    refine ⟨rfl, Nat.zero_le 1, Nat.le_refl 1, ?_, ?_⟩
    · intro xml h; cases h
    · intro _; rfl
  | some xml =>
    by_cases hx : extractKeyMaterial xml = []
    · refine ⟨?_, ?_, ?_, ?_, ?_⟩
      · simp only [resolvePasswordTrace, resolvePassword, if_pos hx]
      · simp only [resolvePasswordTrace, if_pos hx]
        exact Nat.le_refl 1
      · simp only [resolvePasswordTrace, if_pos hx]
        exact Nat.le_refl 1
      · intro xml' h hne
        cases h
        exact absurd hx hne
      · intro _
        simp only [resolvePassword, if_pos hx]
    · refine ⟨?_, ?_, ?_, ?_, ?_⟩
      · simp only [resolvePasswordTrace, resolvePassword, if_neg hx]
      · simp only [resolvePasswordTrace, if_neg hx]
        exact Nat.le_refl 1
      · simp only [resolvePasswordTrace, if_neg hx]
        exact Nat.zero_le 1
      · intro xml' h _
        cases h
        exact ⟨by simp only [resolvePassword, if_neg hx],
          by simp only [resolvePasswordTrace, if_neg hx]⟩
      · intro hall
        exact absurd (hall xml rfl) hx

/-- Witness for C4: with a descriptor whose structured extraction is
non-empty, the composed result is that extraction and the fallback is
never invoked. -/
theorem c4_witness :
    resolvePassword (some "<KeyMaterial> secret123 </KeyMaterial>".toList) []
        = extractKeyMaterial "<KeyMaterial> secret123 </KeyMaterial>".toList ∧
      (resolvePasswordTrace
        (some "<KeyMaterial> secret123 </KeyMaterial>".toList) []).2.2 = 0 :=
  (c4_fallback_policy (some "<KeyMaterial> secret123 </KeyMaterial>".toList) []).2.2.2.1
    "<KeyMaterial> secret123 </KeyMaterial>".toList rfl (by decide)

/-- C6: each extractor call either yields the empty ("nothing") result or
a non-empty string that equals its own trim, i.e. carries no leading or
trailing whitespace; there is no third outcome. -/
theorem c6_trimmed_or_nothing (xml diag : List Char) :
    (extractKeyMaterial xml = [] ∨
      (extractKeyMaterial xml ≠ [] ∧
        trim_w (extractKeyMaterial xml) = extractKeyMaterial xml)) ∧
    (extract_key_fallback diag = [] ∨
      (extract_key_fallback diag ≠ [] ∧
        trim_w (extract_key_fallback diag) = extract_key_fallback diag)) := by
  constructor
  · rcases eq_or_ne (extractKeyMaterial xml) [] with h | h
    · exact Or.inl h
    · exact Or.inr ⟨h, extractKeyMaterial_trim_fixed xml⟩
  · rcases eq_or_ne (extract_key_fallback diag) [] with h | h
    · exact Or.inl h
    · exact Or.inr ⟨h, extract_key_fallback_trim_fixed diag⟩

/-- C7: both extractors are deterministic pure functions of their text
input — in the embedding they are total Lean functions, which is exactly
the purity/no-mutation property; running either twice on the same text
yields identical results. -/
theorem c7_deterministic (xml xml' diag diag' : List Char)
    (h1 : xml = xml') (h2 : diag = diag') :
    extractKeyMaterial xml = extractKeyMaterial xml' ∧
      extract_key_fallback diag = extract_key_fallback diag' := by
  subst h1; subst h2
  exact ⟨rfl, rfl⟩

/-- Witness for C7: two runs on the same concrete document and diagnostic
text agree. -/
theorem c7_witness :
    extractKeyMaterial "<KeyMaterial> secret123 </KeyMaterial>".toList
        = extractKeyMaterial "<KeyMaterial> secret123 </KeyMaterial>".toList ∧
      extract_key_fallback "Key Content            : hunter2\n".toList
        = extract_key_fallback "Key Content            : hunter2\n".toList :=
  c7_deterministic _ _ _ _ rfl rfl

end WifiViewer
